import Mathlib

/-!
Verification of the `bevy_registry` crate (sources: `src/lib.rs`, `src/map.rs`,
`src/key.rs`, `src/entry.rs`).

The Rust code is shallowly embedded: machine integers (`u16`, `u64`, `usize`)
become `Nat`, with an explicit `% 65536` exactly where the source performs an
`as u16` cast that can truncate.  The two descent loops of `InsertMap`
(`insert` and `get` in `src/map.rs`) are modelled with an explicit fuel
argument; exhaustion of the fuel is reported as the distinguished outcome
`DescentFail.fuel`, while an out-of-bounds vector index (a Rust panic) is
reported as `DescentFail.oob`.  The top-level entry points supply fuel
`entries.length + 1`, and the invariant lemmas below prove that on every store
reachable in the program this fuel is never exhausted, so `DescentFail.fuel`
never escapes — the fuel is a modelling device only.

The identifier hash (`xxh64` with the fixed seed, an external crate) is kept
abstract as a parameter `hashf : String → Nat`; the repository code never
inspects hash values, it only compares them.
-/

namespace BevyRegistry

/-! ## Index Node Store (`src/map.rs`) -/

/-- `Node` from `src/map.rs`: `{ key: u64, val: u16, gt: Option<u16>, lt: Option<u16> }`. -/
structure Node where
  key : Nat
  val : Nat
  gt : Option Nat
  lt : Option Nat
deriving DecidableEq

instance : Inhabited Node := ⟨⟨0, 0, none, none⟩⟩

/-- `InsertMap` from `src/map.rs`: a dense vector of nodes. -/
structure InsertMap where
  entries : List Node
deriving DecidableEq

/-- Outcome of a failed descent: `oob` models a Rust index-out-of-bounds
panic, `fuel` is the modelling artefact for a non-terminating loop. -/
inductive DescentFail where
  | oob
  | fuel
deriving DecidableEq

instance {ε α : Type} [DecidableEq ε] [DecidableEq α] : DecidableEq (Except ε α) := fun a b =>
  match a, b with
  | .ok x, .ok y =>
    match decEq x y with
    | .isTrue h => .isTrue (by rw [h])
    | .isFalse h => .isFalse (by intro hc; cases hc; exact h rfl)
  | .error x, .error y =>
    match decEq x y with
    | .isTrue h => .isTrue (by rw [h])
    | .isFalse h => .isFalse (by intro hc; cases hc; exact h rfl)
  | .ok _, .error _ => .isFalse (by intro hc; cases hc)
  | .error _, .ok _ => .isFalse (by intro hc; cases hc)

/-- The node at position `j` (with a dummy default; all uses are in bounds). -/
def nodeAt (es : List Node) (j : Nat) : Node := (es[j]?).getD default

/-- `self.entries[i].gt = Some(..)` as a pure update. -/
def setGt (n : Node) (j : Nat) : Node := { n with gt := some j }

/-- `self.entries[i].lt = Some(..)` as a pure update. -/
def setLt (n : Node) (j : Nat) : Node := { n with lt := some j }

/-- The loop of `InsertMap::get` (`src/map.rs` lines 47-56), fuelled.
At node `i`: `Greater` follows `gt`, `Less` follows `lt` (a missing link
returns `None` via `?`), `Equal` returns the node's `val`.  The initial
`self.entries[i]` access panics when `i` is out of bounds. -/
def getAux (es : List Node) (key : Nat) : Nat → Nat → Except DescentFail (Option Nat)
  | 0, _ => .error .fuel
  | fuel + 1, i =>
    match es[i]? with
    | none => .error .oob
    | some n =>
      if n.key < key then
        match n.gt with
        | some j => getAux es key fuel j
        | none => .ok none
      else if key < n.key then
        match n.lt with
        | some j => getAux es key fuel j
        | none => .ok none
      else .ok (some n.val)

/-- `InsertMap::get`: the descent starts at the root index `0` even on an
empty store (where the very first `self.entries[0]` panics). -/
def InsertMap.get (m : InsertMap) (key : Nat) : Except DescentFail (Option Nat) :=
  getAux m.entries key (m.entries.length + 1) 0

/-- The loop of `InsertMap::insert` (`src/map.rs` lines 29-44), fuelled.
`idx` is `self.entries.len()` captured before the loop; a new child link is
written as `Some(index as u16)`, i.e. `idx % 65536`; on `Equal` the loop
returns `Some(i as u16)`. -/
def insertAux (es : List Node) (key val idx : Nat) : Nat → Nat → Except DescentFail (List Node × Option Nat)
  | 0, _ => .error .fuel
  | fuel + 1, i =>
    match es[i]? with
    | none => .error .oob
    | some n =>
      if n.key < key then
        match n.gt with
        | some j => insertAux es key val idx fuel j
        | none => .ok (es.set i (setGt n (idx % 65536)) ++ [⟨key, val, none, none⟩], none)
      else if key < n.key then
        match n.lt with
        | some j => insertAux es key val idx fuel j
        | none => .ok (es.set i (setLt n (idx % 65536)) ++ [⟨key, val, none, none⟩], none)
      else .ok (es, some (i % 65536))

/-- `InsertMap::insert` (`src/map.rs` lines 20-45): an empty store receives
the new node as root and reports no collision; otherwise the descent runs. -/
def InsertMap.insert (m : InsertMap) (key val : Nat) : Except DescentFail (InsertMap × Option Nat) :=
  if m.entries.length = 0 then
    .ok (⟨[⟨key, val, none, none⟩]⟩, none)
  else
    (insertAux m.entries key val m.entries.length (m.entries.length + 1) 0).map
      (fun p => (⟨p.1⟩, p.2))

/-- The stores that arise from the empty store by `insert` calls. -/
inductive InsertMap.Reachable : InsertMap → Prop where
  | empty : InsertMap.Reachable ⟨[]⟩
  | step {m m' : InsertMap} {k v : Nat} {c : Option Nat} :
      InsertMap.Reachable m → m.insert k v = .ok (m', c) → InsertMap.Reachable m'

/-- Every present child link points strictly below its own array position. -/
def StrictLinks (m : InsertMap) : Prop :=
  ∀ (j : Nat) (n : Node), m.entries[j]? = some n →
    (∀ t, n.gt = some t → j < t) ∧ (∀ t, n.lt = some t → j < t)

/-! ### Descent skeleton

Both loops of `src/map.rs` perform the same three-way-comparison descent and
differ only in what they do at the end.  `descend` captures the shared
descent; `getAux` and `insertAux` are proved equal to `descend` composed with
a per-operation epilogue, so all structural reasoning happens once. -/

/-- Where a descent ends: at the node whose key matches (`found`), or at a
missing `gt`/`lt` link of node `p`. -/
inductive DescentOutcome where
  | found (j : Nat)
  | openGt (p : Nat)
  | openLt (p : Nat)
deriving DecidableEq

def descend (es : List Node) (key : Nat) : Nat → Nat → Except DescentFail DescentOutcome
  | 0, _ => .error .fuel
  | fuel + 1, i =>
    match es[i]? with
    | none => .error .oob
    | some n =>
      if n.key < key then
        match n.gt with
        | some j => descend es key fuel j
        | none => .ok (.openGt i)
      else if key < n.key then
        match n.lt with
        | some j => descend es key fuel j
        | none => .ok (.openLt i)
      else .ok (.found i)

/-- Epilogue of `get`. -/
def outGet (es : List Node) : DescentOutcome → Option Nat
  | .found j => some (nodeAt es j).val
  | .openGt _ => none
  | .openLt _ => none

/-- Epilogue of `insert`. -/
def outIns (es : List Node) (key val idx : Nat) : DescentOutcome → List Node × Option Nat
  | .found j => (es, some (j % 65536))
  | .openGt p => (es.set p (setGt (nodeAt es p) (idx % 65536)) ++ [⟨key, val, none, none⟩], none)
  | .openLt p => (es.set p (setLt (nodeAt es p) (idx % 65536)) ++ [⟨key, val, none, none⟩], none)

theorem getAux_eq_descend (es : List Node) (key : Nat) :
    ∀ fuel i, getAux es key fuel i = (descend es key fuel i).map (outGet es) := by
  intro fuel
  induction fuel with
  | zero => intro i; rfl
  | succ f ih =>
    intro i
    rw [getAux, descend]
    cases h : es[i]? with
    | none => rfl
    | some n =>
      have hn : nodeAt es i = n := by simp [nodeAt, h]
      by_cases h1 : n.key < key
      · simp only [if_pos h1]
        cases hg : n.gt with
        | some j => exact ih j
        | none => rfl
      · by_cases h2 : key < n.key
        · simp only [if_neg h1, if_pos h2]
          cases hl : n.lt with
          | some j => exact ih j
          | none => rfl
        · simp only [if_neg h1, if_neg h2, Except.map, outGet, hn]

theorem insertAux_eq_descend (es : List Node) (key val idx : Nat) :
    ∀ fuel i, insertAux es key val idx fuel i
      = (descend es key fuel i).map (outIns es key val idx) := by
  intro fuel
  induction fuel with
  | zero => intro i; rfl
  | succ f ih =>
    intro i
    rw [insertAux, descend]
    cases h : es[i]? with
    | none => rfl
    | some n =>
      have hn : nodeAt es i = n := by simp [nodeAt, h]
      by_cases h1 : n.key < key
      · simp only [if_pos h1]
        cases hg : n.gt with
        | some j => exact ih j
        | none => simp only [Except.map, outIns, hn]
      · by_cases h2 : key < n.key
        · simp only [if_neg h1, if_pos h2]
          cases hl : n.lt with
          | some j => exact ih j
          | none => simp only [Except.map, outIns, hn]
        · simp only [if_neg h1, if_neg h2, Except.map, outIns]

/-! ### Structural lemmas about the descent -/

/-- All child links stay inside the array and point strictly forward. -/
def LinksOk (es : List Node) : Prop :=
  ∀ (j : Nat) (n : Node), es[j]? = some n →
    (∀ t, n.gt = some t → j < t ∧ t < es.length) ∧
    (∀ t, n.lt = some t → j < t ∧ t < es.length)

/-- Every stored key is found by a root descent, at its own node. -/
def FindsAll (es : List Node) : Prop :=
  ∀ (j : Nat) (n : Node), es[j]? = some n →
    descend es n.key (es.length + 1) 0 = .ok (.found j)

/-- The store invariant maintained by `insert`. -/
def MInv (es : List Node) : Prop := LinksOk es ∧ FindsAll es

theorem descend_fuel_mono (es : List Node) (key : Nat) :
    ∀ fuel fuel' i, fuel ≤ fuel' → descend es key fuel i ≠ .error .fuel →
      descend es key fuel' i = descend es key fuel i := by
  intro fuel
  induction fuel with
  | zero => intro fuel' i _ hne; exact absurd rfl hne
  | succ f ih =>
    intro fuel' i hle hne
    obtain ⟨f', rfl⟩ : ∃ f', fuel' = f' + 1 := ⟨fuel' - 1, by omega⟩
    rw [descend] at hne ⊢
    rw [descend]
    cases h : es[i]? with
    | none => rfl
    | some n =>
      rw [h] at hne
      by_cases h1 : n.key < key
      · simp only [if_pos h1] at hne ⊢
        cases hg : n.gt with
        | some j => rw [hg] at hne; exact ih f' j (by omega) hne
        | none => rfl
      · by_cases h2 : key < n.key
        · simp only [if_neg h1, if_pos h2] at hne ⊢
          cases hl : n.lt with
          | some j => rw [hl] at hne; exact ih f' j (by omega) hne
          | none => rfl
        · simp only [if_neg h1, if_neg h2]

theorem descend_terminates (es : List Node) (key : Nat) (hok : LinksOk es) :
    ∀ fuel i, i < es.length → es.length - i ≤ fuel →
      ∃ o, descend es key fuel i = .ok o := by
  intro fuel
  induction fuel with
  | zero => intro i hi hf; omega
  | succ f ih =>
    intro i hi hf
    rw [descend]
    obtain ⟨n, hn⟩ : ∃ n, es[i]? = some n := ⟨es[i], List.getElem?_eq_getElem hi⟩
    rw [hn]
    by_cases h1 : n.key < key
    · simp only [if_pos h1]
      cases hg : n.gt with
      | some j =>
        have hj := ((hok i n hn).1 j hg)
        exact ih j hj.2 (by omega)
      | none => exact ⟨_, rfl⟩
    · by_cases h2 : key < n.key
      · simp only [if_neg h1, if_pos h2]
        cases hl : n.lt with
        | some j =>
          have hj := ((hok i n hn).2 j hl)
          exact ih j hj.2 (by omega)
        | none => exact ⟨_, rfl⟩
      · simp only [if_neg h1, if_neg h2]
        exact ⟨_, rfl⟩

theorem descend_found_spec (es : List Node) (key : Nat) :
    ∀ fuel i j, descend es key fuel i = .ok (.found j) →
      ∃ n, es[j]? = some n ∧ n.key = key := by
  intro fuel
  induction fuel with
  | zero => intro i j h; exact absurd h (by rw [descend]; intro hc; cases hc)
  | succ f ih =>
    intro i j h
    rw [descend] at h
    cases hn : es[i]? with
    | none => rw [hn] at h; cases h
    | some n =>
      rw [hn] at h
      by_cases h1 : n.key < key
      · simp only [if_pos h1] at h
        cases hg : n.gt with
        | some j' => rw [hg] at h; exact ih j' j h
        | none => rw [hg] at h; cases h
      · by_cases h2 : key < n.key
        · simp only [if_neg h1, if_pos h2] at h
          cases hl : n.lt with
          | some j' => rw [hl] at h; exact ih j' j h
          | none => rw [hl] at h; cases h
        · simp only [if_neg h1, if_neg h2] at h
          cases h
          exact ⟨n, hn, by omega⟩

theorem descend_openGt_spec (es : List Node) (key : Nat) :
    ∀ fuel i p, descend es key fuel i = .ok (.openGt p) →
      ∃ n, es[p]? = some n ∧ n.gt = none ∧ n.key < key := by
  intro fuel
  induction fuel with
  | zero => intro i p h; exact absurd h (by rw [descend]; intro hc; cases hc)
  | succ f ih =>
    intro i p h
    rw [descend] at h
    cases hn : es[i]? with
    | none => rw [hn] at h; cases h
    | some n =>
      rw [hn] at h
      by_cases h1 : n.key < key
      · simp only [if_pos h1] at h
        cases hg : n.gt with
        | some j' => rw [hg] at h; exact ih j' p h
        | none => rw [hg] at h; cases h; exact ⟨n, hn, hg, h1⟩
      · by_cases h2 : key < n.key
        · simp only [if_neg h1, if_pos h2] at h
          cases hl : n.lt with
          | some j' => rw [hl] at h; exact ih j' p h
          | none => rw [hl] at h; cases h
        · simp only [if_neg h1, if_neg h2] at h; cases h

theorem descend_openLt_spec (es : List Node) (key : Nat) :
    ∀ fuel i p, descend es key fuel i = .ok (.openLt p) →
      ∃ n, es[p]? = some n ∧ n.lt = none ∧ key < n.key := by
  intro fuel
  induction fuel with
  | zero => intro i p h; exact absurd h (by rw [descend]; intro hc; cases hc)
  | succ f ih =>
    intro i p h
    rw [descend] at h
    cases hn : es[i]? with
    | none => rw [hn] at h; cases h
    | some n =>
      rw [hn] at h
      by_cases h1 : n.key < key
      · simp only [if_pos h1] at h
        cases hg : n.gt with
        | some j' => rw [hg] at h; exact ih j' p h
        | none => rw [hg] at h; cases h
      · by_cases h2 : key < n.key
        · simp only [if_neg h1, if_pos h2] at h
          cases hl : n.lt with
          | some j' => rw [hl] at h; exact ih j' p h
          | none => rw [hl] at h; cases h; exact ⟨n, hn, hl, h2⟩
        · simp only [if_neg h1, if_neg h2] at h; cases h

/-! ### Access to an updated store

An insert step produces `es.set p np' ++ ts`; these helpers describe its
cells. -/

theorem upd_getElem?_ne {es ts : List Node} {p i : Nat} {np' : Node}
    (hi : i < es.length) (hne : p ≠ i) : (es.set p np' ++ ts)[i]? = es[i]? := by
  rw [List.getElem?_append, List.length_set, if_pos hi, List.getElem?_set_ne hne]

theorem upd_getElem?_self {es ts : List Node} {p : Nat} {np' : Node}
    (hp : p < es.length) : (es.set p np' ++ ts)[p]? = some np' := by
  rw [List.getElem?_append, List.length_set, if_pos hp, List.getElem?_set_eq hp]

theorem upd_getElem?_len {es : List Node} {p : Nat} {np' x : Node} :
    (es.set p np' ++ [x])[es.length]? = some x := by
  have h := List.getElem?_concat_length (es.set p np') x
  rwa [List.length_set] at h

/-! Step equations for `descend`, resolved by the comparison at the current
node; they avoid reasoning under the raw `match`. -/

theorem descend_step {es : List Node} {i : Nat} {n : Node} (key f : Nat)
    (hn : es[i]? = some n) :
    descend es key (f + 1) i =
      if n.key < key then
        match n.gt with
        | some j => descend es key f j
        | none => .ok (.openGt i)
      else if key < n.key then
        match n.lt with
        | some j => descend es key f j
        | none => .ok (.openLt i)
      else .ok (.found i) := by
  rw [descend, hn]

theorem descend_step_gt_link {es : List Node} {i j : Nat} {n : Node} (key f : Nat)
    (hn : es[i]? = some n) (h1 : n.key < key) (hg : n.gt = some j) :
    descend es key (f + 1) i = descend es key f j := by
  rw [descend_step key f hn, if_pos h1, hg]

theorem descend_step_gt_none {es : List Node} {i : Nat} {n : Node} (key f : Nat)
    (hn : es[i]? = some n) (h1 : n.key < key) (hg : n.gt = none) :
    descend es key (f + 1) i = .ok (.openGt i) := by
  rw [descend_step key f hn, if_pos h1, hg]

theorem descend_step_lt_link {es : List Node} {i j : Nat} {n : Node} (key f : Nat)
    (hn : es[i]? = some n) (h2 : key < n.key) (hl : n.lt = some j) :
    descend es key (f + 1) i = descend es key f j := by
  rw [descend_step key f hn, if_neg (by omega), if_pos h2, hl]

theorem descend_step_lt_none {es : List Node} {i : Nat} {n : Node} (key f : Nat)
    (hn : es[i]? = some n) (h2 : key < n.key) (hl : n.lt = none) :
    descend es key (f + 1) i = .ok (.openLt i) := by
  rw [descend_step key f hn, if_neg (by omega), if_pos h2, hl]

theorem descend_step_eq {es : List Node} {i : Nat} {n : Node} (key f : Nat)
    (hn : es[i]? = some n) (heq : n.key = key) :
    descend es key (f + 1) i = .ok (.found i) := by
  rw [descend_step key f hn, if_neg (by omega), if_neg (by omega)]

/-- Frame property: changing one absent child link of node `p` (and appending
any nodes) does not disturb a descent that ends on a matching key. -/
theorem descend_frame {es : List Node} (ts : List Node) {p : Nat} {np : Node} (np' : Node) (key : Nat)
    (hp : es[p]? = some np) (hkey : np'.key = np.key)
    (hside : (np.gt = none ∧ np'.lt = np.lt) ∨ (np.lt = none ∧ np'.gt = np.gt)) :
    ∀ fuel i j, descend es key fuel i = .ok (.found j) →
      descend (es.set p np' ++ ts) key fuel i = .ok (.found j) := by
  have hplen : p < es.length := (List.getElem?_eq_some.mp hp).1
  intro fuel
  induction fuel with
  | zero => intro i j h; exact absurd h (by rw [descend]; intro hc; cases hc)
  | succ f ih =>
    intro i j h
    cases hn : es[i]? with
    | none => rw [descend, hn] at h; cases h
    | some n =>
      have hilen : i < es.length := (List.getElem?_eq_some.mp hn).1
      rcases Nat.lt_trichotomy n.key key with h1 | h1 | h1
      · cases hg : n.gt with
        | some j' =>
          rw [descend_step_gt_link key f hn h1 hg] at h
          by_cases hip : p = i
          · subst hip
            have hnnp : n = np := by rw [hp] at hn; cases hn; rfl
            subst hnnp
            rcases hside with ⟨hgn, _⟩ | ⟨_, hgt⟩
            · rw [hgn] at hg; cases hg
            · exact (descend_step_gt_link key f (upd_getElem?_self hplen)
                (by rw [hkey]; exact h1) (by rw [hgt]; exact hg)).trans (ih j' j h)
          · have hn' : (es.set p np' ++ ts)[i]? = some n := by
              rw [upd_getElem?_ne hilen hip]; exact hn
            exact (descend_step_gt_link key f hn' h1 hg).trans (ih j' j h)
        | none =>
          rw [descend_step_gt_none key f hn h1 hg] at h
          cases h
      · rw [descend_step_eq key f hn h1] at h
        cases h
        by_cases hip : p = i
        · subst hip
          have hnnp : n = np := by rw [hp] at hn; cases hn; rfl
          subst hnnp
          exact descend_step_eq key f (upd_getElem?_self hplen) (hkey.trans h1)
        · have hn' : (es.set p np' ++ ts)[i]? = some n := by
            rw [upd_getElem?_ne hilen hip]; exact hn
          exact descend_step_eq key f hn' h1
      · cases hl : n.lt with
        | some j' =>
          rw [descend_step_lt_link key f hn h1 hl] at h
          by_cases hip : p = i
          · subst hip
            have hnnp : n = np := by rw [hp] at hn; cases hn; rfl
            subst hnnp
            rcases hside with ⟨_, hlt⟩ | ⟨hln, _⟩
            · exact (descend_step_lt_link key f (upd_getElem?_self hplen)
                (by rw [hkey]; exact h1) (by rw [hlt]; exact hl)).trans (ih j' j h)
            · rw [hln] at hl; cases hl
          · have hn' : (es.set p np' ++ ts)[i]? = some n := by
              rw [upd_getElem?_ne hilen hip]; exact hn
            exact (descend_step_lt_link key f hn' h1 hl).trans (ih j' j h)
        | none =>
          rw [descend_step_lt_none key f hn h1 hl] at h
          cases h

/-- After the `gt`-side insert update, the inserted key is found at the new
node (array position `es.length`). -/
theorem descend_newfound_gt {es : List Node} {p : Nat} {np : Node} (key v : Nat)
    (hp : es[p]? = some np) (hnpgt : np.gt = none) :
    ∀ fuel i, descend es key fuel i = .ok (.openGt p) →
      descend (es.set p (setGt np es.length) ++ [⟨key, v, none, none⟩]) key (fuel + 1) i
        = .ok (.found es.length) := by
  have hplen : p < es.length := (List.getElem?_eq_some.mp hp).1
  intro fuel
  induction fuel with
  | zero => intro i h; exact absurd h (by rw [descend]; intro hc; cases hc)
  | succ f ih =>
    intro i h
    cases hn : es[i]? with
    | none => rw [descend, hn] at h; cases h
    | some n =>
      have hilen : i < es.length := (List.getElem?_eq_some.mp hn).1
      rcases Nat.lt_trichotomy n.key key with h1 | h1 | h1
      · cases hg : n.gt with
        | some j' =>
          rw [descend_step_gt_link key f hn h1 hg] at h
          by_cases hip : p = i
          · subst hip
            have hnnp : n = np := by rw [hp] at hn; cases hn; rfl
            subst hnnp
            rw [hg] at hnpgt; cases hnpgt
          · have hn' : (es.set p (setGt np es.length) ++ [⟨key, v, none, none⟩])[i]? = some n := by
              rw [upd_getElem?_ne hilen hip]; exact hn
            exact (descend_step_gt_link key (f + 1) hn' h1 hg).trans (ih j' h)
        | none =>
          rw [descend_step_gt_none key f hn h1 hg] at h
          have hip : i = p := by simpa using h
          have hnnp : n = np := by rw [hip, hp] at hn; cases hn; rfl
          rw [hip]
          have hn' : (es.set p (setGt np es.length) ++ [(⟨key, v, none, none⟩ : Node)])[p]?
              = some (setGt np es.length) := upd_getElem?_self hplen
          rw [descend_step_gt_link key (f + 1) hn' (show np.key < key from hnnp ▸ h1) rfl]
          exact descend_step_eq key f upd_getElem?_len rfl
      · rw [descend_step_eq key f hn h1] at h
        cases h
      · cases hl : n.lt with
        | some j' =>
          rw [descend_step_lt_link key f hn h1 hl] at h
          by_cases hip : p = i
          · have hnnp : n = np := by rw [← hip, hp] at hn; cases hn; rfl
            rw [← hip]
            have hn' : (es.set p (setGt np es.length) ++ [(⟨key, v, none, none⟩ : Node)])[p]?
                = some (setGt np es.length) := upd_getElem?_self hplen
            exact (descend_step_lt_link key (f + 1) hn'
              (show key < np.key from hnnp ▸ h1) (show np.lt = some j' from hnnp ▸ hl)).trans (ih j' h)
          · have hn' : (es.set p (setGt np es.length) ++ [⟨key, v, none, none⟩])[i]? = some n := by
              rw [upd_getElem?_ne hilen hip]; exact hn
            exact (descend_step_lt_link key (f + 1) hn' h1 hl).trans (ih j' h)
        | none =>
          rw [descend_step_lt_none key f hn h1 hl] at h
          cases h

/-- After the `lt`-side insert update, the inserted key is found at the new
node. -/
theorem descend_newfound_lt {es : List Node} {p : Nat} {np : Node} (key v : Nat)
    (hp : es[p]? = some np) (hnplt : np.lt = none) :
    ∀ fuel i, descend es key fuel i = .ok (.openLt p) →
      descend (es.set p (setLt np es.length) ++ [⟨key, v, none, none⟩]) key (fuel + 1) i
        = .ok (.found es.length) := by
  have hplen : p < es.length := (List.getElem?_eq_some.mp hp).1
  intro fuel
  induction fuel with
  | zero => intro i h; exact absurd h (by rw [descend]; intro hc; cases hc)
  | succ f ih =>
    intro i h
    cases hn : es[i]? with
    | none => rw [descend, hn] at h; cases h
    | some n =>
      have hilen : i < es.length := (List.getElem?_eq_some.mp hn).1
      rcases Nat.lt_trichotomy n.key key with h1 | h1 | h1
      · cases hg : n.gt with
        | some j' =>
          rw [descend_step_gt_link key f hn h1 hg] at h
          by_cases hip : p = i
          · have hnnp : n = np := by rw [← hip, hp] at hn; cases hn; rfl
            rw [← hip]
            have hn' : (es.set p (setLt np es.length) ++ [(⟨key, v, none, none⟩ : Node)])[p]?
                = some (setLt np es.length) := upd_getElem?_self hplen
            exact (descend_step_gt_link key (f + 1) hn'
              (show np.key < key from hnnp ▸ h1) (show np.gt = some j' from hnnp ▸ hg)).trans (ih j' h)
          · have hn' : (es.set p (setLt np es.length) ++ [⟨key, v, none, none⟩])[i]? = some n := by
              rw [upd_getElem?_ne hilen hip]; exact hn
            exact (descend_step_gt_link key (f + 1) hn' h1 hg).trans (ih j' h)
        | none =>
          rw [descend_step_gt_none key f hn h1 hg] at h
          cases h
      · rw [descend_step_eq key f hn h1] at h
        cases h
      · cases hl : n.lt with
        | some j' =>
          rw [descend_step_lt_link key f hn h1 hl] at h
          by_cases hip : p = i
          · have hnnp : n = np := by rw [← hip, hp] at hn; cases hn; rfl
            rw [← hnnp, hl] at hnplt; cases hnplt
          · have hn' : (es.set p (setLt np es.length) ++ [⟨key, v, none, none⟩])[i]? = some n := by
              rw [upd_getElem?_ne hilen hip]; exact hn
            exact (descend_step_lt_link key (f + 1) hn' h1 hl).trans (ih j' h)
        | none =>
          rw [descend_step_lt_none key f hn h1 hl] at h
          have hip : i = p := by simpa using h
          have hnnp : n = np := by rw [hip, hp] at hn; cases hn; rfl
          rw [hip]
          have hn' : (es.set p (setLt np es.length) ++ [(⟨key, v, none, none⟩ : Node)])[p]?
              = some (setLt np es.length) := upd_getElem?_self hplen
          rw [descend_step_lt_link key (f + 1) hn' (show key < np.key from hnnp ▸ h1) rfl]
          exact descend_step_eq key f upd_getElem?_len rfl
/-! ### Invariant preservation for `insert` -/

theorem StrictLinks_of_LinksOk {es : List Node} (h : LinksOk es) : StrictLinks ⟨es⟩ := by
  intro j n hj
  exact ⟨fun t ht => ((h j n hj).1 t ht).1, fun t ht => ((h j n hj).2 t ht).1⟩

theorem minv_singleton (key v : Nat) : MInv [⟨key, v, none, none⟩] := by
  constructor
  · intro j n hj
    match j, hj with
    | 0, hj =>
      cases hj
      exact ⟨fun t ht => (nomatch ht), fun t ht => (nomatch ht)⟩
  · intro j n hj
    match j, hj with
    | 0, hj =>
      cases hj
      exact descend_step_eq _ 1 rfl rfl

theorem entries_mk (es : List Node) : (⟨es⟩ : InsertMap).entries = es := rfl

theorem insert_mk (es : List Node) (key v : Nat) :
    InsertMap.insert ⟨es⟩ key v =
      if es.length = 0 then .ok (⟨[⟨key, v, none, none⟩]⟩, none)
      else (insertAux es key v es.length (es.length + 1) 0).map (fun p => (⟨p.1⟩, p.2)) := rfl

theorem get_mk (es : List Node) (key : Nat) :
    InsertMap.get ⟨es⟩ key = getAux es key (es.length + 1) 0 := rfl

/-- Inversion of a successful `insert`: root creation, collision (store
untouched), or append. -/
theorem insert_ok_inversion {m m' : InsertMap} {key v : Nat} {c : Option Nat}
    (h : m.insert key v = .ok (m', c)) :
    (c = none ∧ m.entries.length = 0 ∧ m' = ⟨[⟨key, v, none, none⟩]⟩) ∨
    (∃ j, c = some j ∧ m' = m) ∨
    (c = none ∧ m.entries.length ≠ 0 ∧ m'.entries.length = m.entries.length + 1) := by
  rw [InsertMap.insert] at h
  by_cases hemp : m.entries.length = 0
  · rw [if_pos hemp] at h
    cases h
    exact Or.inl ⟨rfl, hemp, rfl⟩
  · rw [if_neg hemp, insertAux_eq_descend] at h
    cases hdes : descend m.entries key (m.entries.length + 1) 0 with
    | error e => rw [hdes] at h; cases h
    | ok o =>
      rw [hdes] at h
      cases o with
      | found j =>
        refine Or.inr (Or.inl ⟨j % 65536, ?_, ?_⟩) <;> cases h <;> rfl
      | openGt p =>
        refine Or.inr (Or.inr ⟨?_, hemp, ?_⟩) <;> cases h <;>
          simp [outIns, List.length_append, List.length_set]
      | openLt p =>
        refine Or.inr (Or.inr ⟨?_, hemp, ?_⟩) <;> cases h <;>
          simp [outIns, List.length_append, List.length_set]

/-- On a store satisfying the invariant, inserting a key already present
reports the array position of the node holding that key and leaves the store
unchanged. -/
theorem insert_collision_spec {es : List Node} {j key v : Nat} {n : Node}
    (hinv : MInv es) (hlen : es.length ≤ 65536)
    (hj : es[j]? = some n) (hkey : n.key = key) :
    InsertMap.insert ⟨es⟩ key v = .ok (⟨es⟩, some j) := by
  have hjlen : j < es.length := (List.getElem?_eq_some.mp hj).1
  have hfind : descend es key (es.length + 1) 0 = .ok (.found j) := by
    have hf := hinv.2 j n hj
    rwa [hkey] at hf
  rw [insert_mk, if_neg (show ¬ es.length = 0 by omega), insertAux_eq_descend, hfind]
  simp [outIns, Except.map, Nat.mod_eq_of_lt (show j < 65536 by omega)]

/-- A successful non-colliding `insert` appends the new node, preserves every
old node's key and value, and maintains the invariant. -/
theorem insert_ok_none_spec {es : List Node} {key v : Nat} {m' : InsertMap}
    (hinv : MInv es) (hlen : es.length < 65536)
    (h : InsertMap.insert ⟨es⟩ key v = .ok (m', none)) :
    m'.entries.length = es.length + 1 ∧
    (∀ (j : Nat) (n : Node), es[j]? = some n →
      ∃ n', m'.entries[j]? = some n' ∧ n'.key = n.key ∧ n'.val = n.val) ∧
    m'.entries[es.length]? = some ⟨key, v, none, none⟩ ∧
    MInv m'.entries := by
  by_cases hemp : es.length = 0
  · rw [insert_mk, if_pos hemp] at h
    cases h
    have hes : es = [] := List.length_eq_zero.mp hemp
    subst hes
    exact ⟨rfl, fun j n hj => (nomatch hj), rfl, minv_singleton key v⟩
  · rw [insert_mk, if_neg hemp, insertAux_eq_descend] at h
    cases hdes : descend es key (es.length + 1) 0 with
    | error e => rw [hdes] at h; cases h
    | ok o =>
      rw [hdes] at h
      cases o with
      | found j => simp [outIns, Except.map] at h
      | openGt p =>
        obtain ⟨np, hp, hnpgt, hnpkey⟩ := descend_openGt_spec es key _ _ _ hdes
        have hplen : p < es.length := (List.getElem?_eq_some.mp hp).1
        have hnp : nodeAt es p = np := by simp [nodeAt, hp]
        have hm' : m' = ⟨es.set p (setGt np es.length) ++ [⟨key, v, none, none⟩]⟩ := by
          simp only [outIns, Except.map, hnp, Nat.mod_eq_of_lt hlen] at h
          cases h
          rfl
        subst hm'
        refine ⟨by simp, ?_, upd_getElem?_len, ?_, ?_⟩
        · intro j n hj
          by_cases hjp : p = j
          · subst hjp
            rw [hp] at hj
            cases hj
            exact ⟨setGt np es.length, upd_getElem?_self hplen, rfl, rfl⟩
          · exact ⟨n, by rw [upd_getElem?_ne (List.getElem?_eq_some.mp hj).1 hjp]; exact hj,
              rfl, rfl⟩
        · -- LinksOk of the updated store
          intro j n hj
          have hjlen : j < es.length + 1 := by
            have hl := (List.getElem?_eq_some.mp hj).1
            simpa using hl
          rcases Nat.lt_trichotomy j es.length with hj1 | hj1 | hj1
          · by_cases hjp : p = j
            · subst hjp
              rw [upd_getElem?_self hplen] at hj
              cases hj
              constructor
              · intro t ht
                cases ht
                simp
                omega
              · intro t ht
                have hb := (hinv.1 p np hp).2 t ht
                simp
                omega
            · rw [upd_getElem?_ne hj1 hjp] at hj
              constructor
              · intro t ht
                have hb := (hinv.1 j n hj).1 t ht
                simp
                omega
              · intro t ht
                have hb := (hinv.1 j n hj).2 t ht
                simp
                omega
          · subst hj1
            rw [upd_getElem?_len] at hj
            cases hj
            exact ⟨fun t ht => (nomatch ht), fun t ht => (nomatch ht)⟩
          · exfalso
            omega
        · -- FindsAll of the updated store
          intro j n hj
          have hulen : (es.set p (setGt np es.length) ++ [(⟨key, v, none, none⟩ : Node)]).length
              = es.length + 1 := by simp
          have hjlen : j < es.length + 1 := by
            have hl := (List.getElem?_eq_some.mp hj).1
            simpa using hl
          rcases Nat.lt_trichotomy j es.length with hj1 | hj1 | hj1
          · -- an old node: its key survives, and the old descent still finds it
            have hkeyeq : ∃ n₀, es[j]? = some n₀ ∧ n.key = n₀.key := by
              by_cases hjp : p = j
              · subst hjp
                rw [upd_getElem?_self hplen] at hj
                cases hj
                exact ⟨np, hp, rfl⟩
              · rw [upd_getElem?_ne hj1 hjp] at hj
                exact ⟨n, hj, rfl⟩
            obtain ⟨n₀, hn₀, hkey₀⟩ := hkeyeq
            have hold := hinv.2 j n₀ hn₀
            have hframe := descend_frame [⟨key, v, none, none⟩] (setGt np es.length) n₀.key hp
              rfl (Or.inl ⟨hnpgt, rfl⟩) (es.length + 1) 0 j hold
            rw [hulen, hkey₀]
            have hne : descend (es.set p (setGt np es.length) ++ [(⟨key, v, none, none⟩ : Node)])
                n₀.key (es.length + 1) 0 ≠ .error .fuel := by
              rw [hframe]
              intro hc
              cases hc
            rw [descend_fuel_mono _ n₀.key (es.length + 1) (es.length + 1 + 1) 0
              (by omega) hne, hframe]
          · -- the new node: found via the fresh link
            subst hj1
            rw [upd_getElem?_len] at hj
            cases hj
            rw [hulen]
            exact descend_newfound_gt key v hp hnpgt (es.length + 1) 0 hdes
          · exfalso
            omega
      | openLt p =>
        obtain ⟨np, hp, hnplt, hnpkey⟩ := descend_openLt_spec es key _ _ _ hdes
        have hplen : p < es.length := (List.getElem?_eq_some.mp hp).1
        have hnp : nodeAt es p = np := by simp [nodeAt, hp]
        have hm' : m' = ⟨es.set p (setLt np es.length) ++ [⟨key, v, none, none⟩]⟩ := by
          simp only [outIns, Except.map, hnp, Nat.mod_eq_of_lt hlen] at h
          cases h
          rfl
        subst hm'
        refine ⟨by simp, ?_, upd_getElem?_len, ?_, ?_⟩
        · intro j n hj
          by_cases hjp : p = j
          · subst hjp
            rw [hp] at hj
            cases hj
            exact ⟨setLt np es.length, upd_getElem?_self hplen, rfl, rfl⟩
          · exact ⟨n, by rw [upd_getElem?_ne (List.getElem?_eq_some.mp hj).1 hjp]; exact hj,
              rfl, rfl⟩
        · intro j n hj
          have hjlen : j < es.length + 1 := by
            have hl := (List.getElem?_eq_some.mp hj).1
            simpa using hl
          rcases Nat.lt_trichotomy j es.length with hj1 | hj1 | hj1
          · by_cases hjp : p = j
            · subst hjp
              rw [upd_getElem?_self hplen] at hj
              cases hj
              constructor
              · intro t ht
                have hb := (hinv.1 p np hp).1 t ht
                simp
                omega
              · intro t ht
                cases ht
                simp
                omega
            · rw [upd_getElem?_ne hj1 hjp] at hj
              constructor
              · intro t ht
                have hb := (hinv.1 j n hj).1 t ht
                simp
                omega
              · intro t ht
                have hb := (hinv.1 j n hj).2 t ht
                simp
                omega
          · subst hj1
            rw [upd_getElem?_len] at hj
            cases hj
            exact ⟨fun t ht => (nomatch ht), fun t ht => (nomatch ht)⟩
          · exfalso
            omega
        · intro j n hj
          have hulen : (es.set p (setLt np es.length) ++ [(⟨key, v, none, none⟩ : Node)]).length
              = es.length + 1 := by simp
          have hjlen : j < es.length + 1 := by
            have hl := (List.getElem?_eq_some.mp hj).1
            simpa using hl
          rcases Nat.lt_trichotomy j es.length with hj1 | hj1 | hj1
          · have hkeyeq : ∃ n₀, es[j]? = some n₀ ∧ n.key = n₀.key := by
              by_cases hjp : p = j
              · subst hjp
                rw [upd_getElem?_self hplen] at hj
                cases hj
                exact ⟨np, hp, rfl⟩
              · rw [upd_getElem?_ne hj1 hjp] at hj
                exact ⟨n, hj, rfl⟩
            obtain ⟨n₀, hn₀, hkey₀⟩ := hkeyeq
            have hold := hinv.2 j n₀ hn₀
            have hframe := descend_frame [⟨key, v, none, none⟩] (setLt np es.length) n₀.key hp
              rfl (Or.inr ⟨hnplt, rfl⟩) (es.length + 1) 0 j hold
            rw [hulen, hkey₀]
            have hne : descend (es.set p (setLt np es.length) ++ [(⟨key, v, none, none⟩ : Node)])
                n₀.key (es.length + 1) 0 ≠ .error .fuel := by
              rw [hframe]
              intro hc
              cases hc
            rw [descend_fuel_mono _ n₀.key (es.length + 1) (es.length + 1 + 1) 0
              (by omega) hne, hframe]
          · subst hj1
            rw [upd_getElem?_len] at hj
            cases hj
            rw [hulen]
            exact descend_newfound_lt key v hp hnplt (es.length + 1) 0 hdes
          · exfalso
            omega

/-- Stores reachable with at most `2^16` entries satisfy the invariant. -/
theorem reachable_MInv {m : InsertMap} (hreach : InsertMap.Reachable m) :
    m.entries.length ≤ 65536 → MInv m.entries := by
  induction hreach with
  | empty =>
    intro _
    exact ⟨fun j n hj => (nomatch hj), fun j n hj => (nomatch hj)⟩
  | @step m m' k v c hr hins ih =>
    intro hlen'
    rcases insert_ok_inversion hins with ⟨_, _, hm'⟩ | ⟨j, hc, hm'⟩ | ⟨hc, hne, hlen⟩
    · subst hm'
      exact minv_singleton k v
    · subst hm'
      exact ih hlen'
    · subst hc
      have hlt : m.entries.length < 65536 := by omega
      have hminv := ih (by omega)
      have hm : (⟨m.entries⟩ : InsertMap) = m := rfl
      rw [← hm] at hins
      exact (insert_ok_none_spec hminv hlt hins).2.2.2

/-- On an invariant store, `get` finds every stored key, returning the stored
value. -/
theorem get_of_findsAll {es : List Node} {j : Nat} {n : Node}
    (hinv : MInv es) (hj : es[j]? = some n) :
    InsertMap.get ⟨es⟩ n.key = .ok (some n.val) := by
  rw [get_mk, getAux_eq_descend, hinv.2 j n hj]
  simp [outGet, Except.map, nodeAt, hj]

/-! ## Key system, Entry, Registry (`src/key.rs`, `src/entry.rs`, `src/lib.rs`) -/

/-- `LocalKey<I>` (`src/key.rs` lines 18-21): a `u16` slot index plus a
phantom type tag; equality is index equality. -/
structure LocalKey (I : Type) where
  index : Nat
deriving DecidableEq

/-- `GlobalKey<I>` (`src/key.rs` lines 61-64): a `u64` hash plus a phantom
type tag; equality is hash equality. -/
structure GlobalKey (I : Type) where
  hash : Nat
deriving DecidableEq

variable {I : Type}

/-- `GlobalKey::new` (`src/key.rs` lines 66-73); `hashf` abstracts
`xxh64(ident.as_bytes(), HASH_SEED)` with the fixed seed. -/
def GlobalKey.new (hashf : String → Nat) (ident : String) : GlobalKey I :=
  ⟨hashf ident⟩

/-- `Entry<I>` (`src/entry.rs` lines 5-13); field accessors `ident`,
`local_key`, `global_key` are the methods of lines 15-27. -/
structure Entry (I : Type) where
  ident : String
  local_key : LocalKey I
  global_key : GlobalKey I
  item : I
deriving DecidableEq

/-- `Deref for Entry` (`src/entry.rs` lines 29-35): transparent payload
read. -/
def Entry.deref (e : Entry I) : I := e.item

/-- Writing the public `item` field (equally `DerefMut`,
`src/entry.rs` lines 37-41): only the payload changes. -/
def Entry.setItem (e : Entry I) (x : I) : Entry I := { e with item := x }

/-- `Registry<I>` (`src/lib.rs` lines 53-59). -/
structure Registry (I : Type) where
  items : List (Entry I)
  table : InsertMap
deriving DecidableEq

/-- `Registry::new` / `with_capacity` / `reserve` (`src/lib.rs` lines 62-81)
construct an empty registry; capacity pre-allocation has no observable
content. -/
def Registry.new : Registry I := ⟨[], ⟨[]⟩⟩

/-- Result of `Registry::add` (`src/lib.rs` lines 84-142).  The two `panic!`
branches become explicit outcomes carrying the registry state left behind by
the aborted call; `conflicting` is the identifier the uniqueness diagnostic
prints (`self.items[collision as usize].ident()`), `none` standing for the
out-of-bounds panic that the diagnostic itself would raise on a bad slot.
`storeFault` propagates an `InsertMap` descent failure. -/
inductive AddResult (I : Type) where
  | ok (r : Registry I) (e : Entry I)
  | capacityError (r : Registry I)
  | uniquenessError (r : Registry I) (conflicting : Option String)
  | storeFault (f : DescentFail)
deriving DecidableEq

/-- `Registry::add` (`src/lib.rs` lines 84-142): capacity gate at
`u16::MAX = 65535`, hash, `InsertMap::insert`, then push the new entry whose
`local` is the pre-push length (`as u16`, hence `% 65536`) and return it. -/
def Registry.add (hashf : String → Nat) (r : Registry I) (ident : String) (item : I) : AddResult I :=
  if 65535 ≤ r.items.length then .capacityError r
  else
    match r.table.insert (hashf ident) (r.items.length % 65536) with
    | .error f => .storeFault f
    | .ok (t, some collision) =>
        .uniquenessError { r with table := t } ((r.items[collision]?).map Entry.ident)
    | .ok (t, none) =>
        .ok ⟨r.items ++ [⟨ident, ⟨r.items.length % 65536⟩, ⟨hashf ident⟩, item⟩], t⟩
          ⟨ident, ⟨r.items.length % 65536⟩, ⟨hashf ident⟩, item⟩

/-- `Registry::search` (`src/lib.rs` lines 145-147): table lookup, then
direct slot access (whose out-of-bounds panic is `.error .oob`). -/
def Registry.search (r : Registry I) (key : GlobalKey I) : Except DescentFail (Option (Entry I)) :=
  match r.table.get key.hash with
  | .error f => .error f
  | .ok none => .ok none
  | .ok (some idx) =>
      match r.items[idx]? with
      | some e => .ok (some e)
      | none => .error .oob

/-- `Index<LocalKey<I>> for Registry<I>` (`src/lib.rs` lines 165-171):
unchecked `O(1)` slot access; `none` models the out-of-bounds panic. -/
def Registry.indexLocal (r : Registry I) (key : LocalKey I) : Option (Entry I) :=
  r.items[key.index]?

/-- The build phase: repeated `add` from a given registry, collecting the
entry returned by each call; a fatal `add` outcome aborts the build the way
the Rust panic does. -/
def Registry.addList (hashf : String → Nat) : Registry I → List (String × I) → Option (Registry I × List (Entry I))
  | r, [] => some (r, [])
  | r, (idn, it) :: rest =>
    match r.add hashf idn it with
    | .ok r' e => (Registry.addList hashf r' rest).map (fun q => (q.1, e :: q.2))
    | _ => none

/-! ### Serde wire model for `GlobalKey` (`src/key.rs` lines 75-140) -/

/-- The values the `GlobalKey` visitor accepts: unsigned integers of the four
widths handled by `visit_u8/u16/u32/u64`, or an owned string handled by
`visit_string`. -/
inductive SerdeValue where
  | u8 (v : Nat)
  | u16 (v : Nat)
  | u32 (v : Nat)
  | u64 (v : Nat)
  | str (s : String)

/-- `Deserialize for GlobalKey` (`src/key.rs` lines 75-131): an integer is
widened (`as u64`) and taken directly as the hash; a string is hashed with
the fixed function and seed on decode. -/
def GlobalKey.deserialize (hashf : String → Nat) : SerdeValue → GlobalKey I
  | .u8 v => ⟨v⟩
  | .u16 v => ⟨v⟩
  | .u32 v => ⟨v⟩
  | .u64 v => ⟨v⟩
  | .str s => ⟨hashf s⟩

/-- `Serialize for GlobalKey` (`src/key.rs` lines 133-140):
`serialize_u64(self.hash)`. -/
def GlobalKey.serialize (k : GlobalKey I) : Nat := k.hash

/-! ### Payload mutation paths (`DerefMut`, `IndexMut`, `search_mut`,
`iter_mut`) -/

/-- Payload write at one slot: what writing through a mutable entry
reference at that position does to the entry vector. -/
def setItemAt : List (Entry I) → Nat → I → List (Entry I)
  | [], _, _ => []
  | e :: es, 0, x => e.setItem x :: es
  | e :: es, k + 1, x => e :: setItemAt es k x

/-- `IndexMut` (`src/lib.rs` lines 173-177) followed by a payload write. -/
def Registry.indexLocalSet (r : Registry I) (key : LocalKey I) (x : I) : Registry I :=
  { r with items := setItemAt r.items key.index x }

/-- `search_mut` (`src/lib.rs` lines 149-152) followed by a payload write on
a hit; a miss returns the registry unchanged. -/
def Registry.searchMutSet (r : Registry I) (key : GlobalKey I) (x : I) : Except DescentFail (Registry I) :=
  match r.table.get key.hash with
  | .error f => .error f
  | .ok none => .ok r
  | .ok (some idx) =>
      match r.items[idx]? with
      | some _ => .ok { r with items := setItemAt r.items idx x }
      | none => .error .oob

/-- `iter_mut` (`src/lib.rs` lines 160-162) with a payload update applied to
every entry in insertion order. -/
def Registry.iterMutMap (r : Registry I) (f : I → I) : Registry I :=
  { r with items := r.items.map (fun e => e.setItem (f e.item)) }

/-- The identity fields visible at slot `j`. -/
def Registry.identityAt (r : Registry I) (j : Nat) : Option (String × LocalKey I × GlobalKey I) :=
  (r.items[j]?).map (fun e => (e.ident, e.local_key, e.global_key))

/-! ### Registry invariant -/

theorem append_single_getElem?_inv {α : Type} {l : List α} {x y : α} {j : Nat}
    (h : (l ++ [x])[j]? = some y) :
    (j < l.length ∧ l[j]? = some y) ∨ (j = l.length ∧ y = x) := by
  have hj : j < l.length + 1 := by
    have hl := (List.getElem?_eq_some.mp h).1
    simpa using hl
  rcases Nat.lt_trichotomy j l.length with h1 | h1 | h1
  · left
    refine ⟨h1, ?_⟩
    rwa [List.getElem?_append, if_pos h1] at h
  · right
    subst h1
    rw [List.getElem?_concat_length] at h
    cases h
    exact ⟨rfl, rfl⟩
  · omega

/-- The invariant of a registry populated through `add`: the table satisfies
the store invariant, table and entry vector are in lockstep (node `j` has
`val = j` and key `hashf` of entry `j`'s identifier), and every entry carries
its own slot index and its identifier's hash. -/
def RInv (hashf : String → Nat) (r : Registry I) : Prop :=
  MInv r.table.entries ∧
  r.table.entries.length = r.items.length ∧
  (∀ (j : Nat) (n : Node), r.table.entries[j]? = some n →
    n.val = j ∧ ∃ e, r.items[j]? = some e ∧ n.key = hashf e.ident) ∧
  (∀ (j : Nat) (e : Entry I), r.items[j]? = some e →
    e.local_key = ⟨j⟩ ∧ e.global_key = ⟨hashf e.ident⟩)

theorem rinv_new (hashf : String → Nat) : RInv hashf (Registry.new : Registry I) :=
  ⟨⟨fun _ _ hj => (nomatch hj), fun _ _ hj => (nomatch hj)⟩, rfl,
    fun _ _ hj => (nomatch hj), fun _ _ hj => (nomatch hj)⟩

/-- What a successful `add` does: it requires spare capacity, appends exactly
one entry carrying the pre-push length as its local key, appends exactly one
table node, and preserves the invariant. -/
theorem add_ok_spec {hashf : String → Nat} {r r' : Registry I} {idn : String} {it : I}
    {e : Entry I} (hinv : RInv hashf r) (h : r.add hashf idn it = .ok r' e) :
    r.items.length < 65535 ∧
    e = ⟨idn, ⟨r.items.length⟩, ⟨hashf idn⟩, it⟩ ∧
    r'.items = r.items ++ [e] ∧
    r'.table.entries.length = r.table.entries.length + 1 ∧
    RInv hashf r' := by
  rw [Registry.add] at h
  by_cases hcap : 65535 ≤ r.items.length
  · rw [if_pos hcap] at h
    cases h
  · rw [if_neg hcap] at h
    have hlen : r.items.length < 65535 := by omega
    have hlk : r.items.length % 65536 = r.items.length := Nat.mod_eq_of_lt (by omega)
    rw [hlk] at h
    cases hins : r.table.insert (hashf idn) r.items.length with
    | error f => rw [hins] at h; cases h
    | ok p =>
      obtain ⟨t, c⟩ := p
      rw [hins] at h
      cases c with
      | some col => cases h
      | none =>
        cases h
        have htb : r.table.entries.length = r.items.length := hinv.2.1
        have hspec := insert_ok_none_spec hinv.1 (by omega)
          (show InsertMap.insert ⟨r.table.entries⟩ (hashf idn) r.items.length = .ok (t, none)
            from hins)
        obtain ⟨htlen, hold, hnew, hminv⟩ := hspec
        refine ⟨hlen, rfl, rfl, htlen, hminv, by simp [htlen, htb], ?_, ?_⟩
        · -- node facts in the new table
          intro j n hj
          have hjlen : j < t.entries.length := (List.getElem?_eq_some.mp hj).1
          rcases Nat.lt_trichotomy j r.table.entries.length with h1 | h1 | h1
          · obtain ⟨n₀, hn₀⟩ : ∃ n₀, r.table.entries[j]? = some n₀ :=
              ⟨r.table.entries[j], List.getElem?_eq_getElem h1⟩
            obtain ⟨n', hn', hkeq, hveq⟩ := hold j n₀ hn₀
            rw [hn'] at hj
            cases hj
            obtain ⟨hval₀, e₀, he₀, hkey₀⟩ := hinv.2.2.1 j n₀ hn₀
            refine ⟨by rw [hveq, hval₀], e₀, ?_, by rw [hkeq, hkey₀]⟩
            rw [List.getElem?_append, if_pos (by omega)]
            exact he₀
          · rw [htb] at h1
            subst h1
            rw [← htb] at hj
            rw [hnew] at hj
            cases hj
            refine ⟨rfl, ⟨idn, ⟨r.items.length⟩, ⟨hashf idn⟩, it⟩, ?_, rfl⟩
            exact List.getElem?_concat_length r.items _
          · omega
        · -- entry facts in the new vector
          intro j e' hj
          rcases append_single_getElem?_inv hj with ⟨h1, hj'⟩ | ⟨h1, hj'⟩
          · exact hinv.2.2.2 j e' hj'
          · subst h1
            cases hj'
            exact ⟨rfl, rfl⟩

/-- The build phase from any invariant registry: entries are appended in
order, each carrying its slot index, and the total count stays within the
16-bit bound. -/
theorem addList_spec {hashf : String → Nat} :
    ∀ (pairs : List (String × I)) (r r' : Registry I) (es : List (Entry I)),
      RInv hashf r → Registry.addList hashf r pairs = some (r', es) →
      RInv hashf r' ∧ r'.items = r.items ++ es ∧ es.length = pairs.length ∧
      (∀ (i : Nat) (p : String × I), pairs[i]? = some p →
        es[i]? = some ⟨p.1, ⟨r.items.length + i⟩, ⟨hashf p.1⟩, p.2⟩) ∧
      (pairs = [] ∨ r'.items.length ≤ 65535) := by
  intro pairs
  induction pairs with
  | nil =>
    intro r r' es hinv h
    rw [Registry.addList] at h
    cases h
    exact ⟨hinv, by simp, rfl, fun i p hp => (nomatch hp), Or.inl rfl⟩
  | cons hd rest ih =>
    intro r r' es hinv h
    obtain ⟨idn, it⟩ := hd
    rw [Registry.addList] at h
    cases hadd : r.add hashf idn it with
    | ok r₁ e =>
      rw [hadd] at h
      have h' : (Registry.addList hashf r₁ rest).map (fun q => (q.1, e :: q.2)) = some (r', es) := h
      cases hrest : Registry.addList hashf r₁ rest with
      | none => rw [hrest] at h'; cases h'
      | some q =>
        rw [hrest] at h'
        cases h'
        obtain ⟨hlen, he, hitems₁, _, hinv₁⟩ := add_ok_spec hinv hadd
        obtain ⟨hinv', hitems', hlen', hlook', hbound'⟩ := ih r₁ q.1 q.2 hinv₁ hrest
        have hlen₁ : r₁.items.length = r.items.length + 1 := by
          rw [hitems₁]; simp
        refine ⟨hinv', ?_, by simp [hlen'], ?_, ?_⟩
        · rw [hitems', hitems₁, List.append_assoc]
          rfl
        · intro i p hp
          cases i with
          | zero =>
            rw [List.getElem?_cons_zero] at hp
            cases hp
            simp [he]
          | succ k =>
            rw [List.getElem?_cons_succ] at hp
            have hq := hlook' k p hp
            have : r₁.items.length + k = r.items.length + (k + 1) := by omega
            rw [this] at hq
            simpa using hq
        · right
          rcases hbound' with hrnil | hb
          · subst hrnil
            rw [Registry.addList] at hrest
            cases hrest
            show r₁.items.length ≤ 65535
            omega
          · exact hb
    | capacityError r₁ => rw [hadd] at h; cases h
    | uniquenessError r₁ s => rw [hadd] at h; cases h
    | storeFault f => rw [hadd] at h; cases h

/-! ### A reachable store that breaks the forward-link property

Inserting the strictly decreasing keys `131072, 131071, …` builds a left
spine: node `i` holds key `131072 - i` and its `lt` link points to `i + 1`.
The 65537th node's parent link is written as `Some(65536 as u16) = Some(0)`,
pointing back at the root. -/

def spineNode (n i : Nat) : Node :=
  ⟨131072 - i, 0, none, if i + 1 < n then some ((i + 1) % 65536) else none⟩

def spine (n : Nat) : List Node := (List.range n).map (spineNode n)

theorem spine_length (n : Nat) : (spine n).length = n := by simp [spine]

theorem spine_getElem? {n i : Nat} (h : i < n) : (spine n)[i]? = some (spineNode n i) := by
  rw [spine, List.getElem?_map, List.getElem?_range h]
  rfl

theorem spine_descend : ∀ (f n i : Nat), i < n → n ≤ 65536 → n - i ≤ f →
    descend (spine n) (131072 - n) f i = .ok (.openLt (n - 1)) := by
  intro f
  induction f with
  | zero => intro n i h1 h2 h3; omega
  | succ f ih =>
    intro n i h1 h2 h3
    have hn : (spine n)[i]? = some (spineNode n i) := spine_getElem? h1
    have hklt : 131072 - n < (spineNode n i).key := by
      simp only [spineNode]
      omega
    by_cases hcase : i + 1 < n
    · have hlink : (spineNode n i).lt = some (i + 1) := by
        simp only [spineNode]
        rw [if_pos hcase, Nat.mod_eq_of_lt (by omega)]
      rw [descend_step_lt_link (131072 - n) f hn hklt hlink]
      exact ih n (i + 1) hcase h2 (by omega)
    · have hlink : (spineNode n i).lt = none := by
        simp only [spineNode]
        rw [if_neg hcase]
      rw [descend_step_lt_none (131072 - n) f hn hklt hlink]
      have hi : i = n - 1 := by omega
      rw [hi]

theorem spine_succ (n : Nat) (h1 : 1 ≤ n) :
    (spine n).set (n - 1) (setLt (spineNode n (n - 1)) (n % 65536)) ++ [⟨131072 - n, 0, none, none⟩]
      = spine (n + 1) := by
  have hlen : (spine n).length = n := spine_length n
  apply List.ext_getElem?
  intro j
  rcases Nat.lt_trichotomy j (n - 1) with hj | hj | hj
  · rw [upd_getElem?_ne (by omega) (by omega), spine_getElem? (show j < n by omega),
      spine_getElem? (show j < n + 1 by omega)]
    have e1 : (if j + 1 < n then some ((j + 1) % 65536) else none) = some ((j + 1) % 65536) :=
      if_pos (by omega)
    have e2 : (if j + 1 < n + 1 then some ((j + 1) % 65536) else none) = some ((j + 1) % 65536) :=
      if_pos (by omega)
    simp only [spineNode, e1, e2]
  · subst hj
    rw [upd_getElem?_self (by omega), spine_getElem? (show n - 1 < n + 1 by omega)]
    have hx : spineNode n (n - 1) = ⟨131072 - (n - 1), 0, none, none⟩ := by
      simp only [spineNode]
      rw [if_neg (show ¬ (n - 1 + 1 < n) by omega)]
    have hy : spineNode (n + 1) (n - 1) = ⟨131072 - (n - 1), 0, none, some (n % 65536)⟩ := by
      simp only [spineNode]
      rw [if_pos (show n - 1 + 1 < n + 1 by omega), show n - 1 + 1 = n from by omega]
    rw [hx, hy]
    rfl
  · rcases Nat.lt_trichotomy j n with h2 | h2 | h2
    · omega
    · rw [h2]
      have hx := @upd_getElem?_len (spine n) (n - 1)
        (setLt (spineNode n (n - 1)) (n % 65536)) ⟨131072 - n, 0, none, none⟩
      rw [hlen] at hx
      rw [hx, spine_getElem? (show n < n + 1 by omega)]
      have hy : spineNode (n + 1) n = ⟨131072 - n, 0, none, none⟩ := by
        simp only [spineNode]
        rw [if_neg (show ¬ (n + 1 < n + 1) by omega)]
      rw [hy]
    · rw [List.getElem?_eq_none (by simp [hlen]; omega),
        List.getElem?_eq_none (by rw [spine_length]; omega)]

theorem spine_insert {n : Nat} (h1 : 1 ≤ n) (h2 : n ≤ 65536) :
    InsertMap.insert ⟨spine n⟩ (131072 - n) 0 = .ok (⟨spine (n + 1)⟩, none) := by
  have hlen : (spine n).length = n := spine_length n
  rw [insert_mk, if_neg (by omega), insertAux_eq_descend, hlen,
    spine_descend (n + 1) n 0 (by omega) h2 (by omega)]
  have hnd : nodeAt (spine n) (n - 1) = spineNode n (n - 1) := by
    simp [nodeAt, spine_getElem? (show n - 1 < n by omega)]
  simp only [outIns, Except.map, hnd]
  rw [spine_succ n h1]

theorem spine_reachable : ∀ m : Nat, m ≤ 65536 → InsertMap.Reachable ⟨spine (m + 1)⟩ := by
  intro m
  induction m with
  | zero =>
    intro _
    refine .step .empty (show InsertMap.insert ⟨[]⟩ 131072 0 = .ok (⟨spine 1⟩, none) from ?_)
    rfl
  | succ k ih =>
    intro hk
    have hstep := spine_insert (show 1 ≤ k + 1 by omega) (show k + 1 ≤ 65536 by omega)
    exact .step (ih (by omega)) hstep

/-! ### Support lemmas for the claim theorems -/

/-- `get` never exhausts its fuel on a store reachable within the 16-bit
bound: the loops of `src/map.rs` terminate there. -/
theorem get_no_fuel {m : InsertMap} (hreach : InsertMap.Reachable m)
    (hlen : m.entries.length ≤ 65536) (k : Nat) : m.get k ≠ .error .fuel := by
  have hminv := reachable_MInv hreach hlen
  obtain ⟨es⟩ := m
  rw [get_mk, getAux_eq_descend]
  cases es with
  | nil =>
    have hd : descend ([] : List Node) k (([] : List Node).length + 1) 0 = .error .oob := by
      rw [descend]
      rfl
    rw [hd]
    intro hc
    cases hc
  | cons hd tl =>
    obtain ⟨o, ho⟩ := descend_terminates (hd :: tl) k hminv.1 ((hd :: tl).length + 1) 0
      (by simp) (by simp)
    rw [ho]
    intro hc
    cases hc

/-- `insert` never exhausts its fuel on a store reachable within the 16-bit
bound either: both descent loops of `src/map.rs` terminate there. -/
theorem insert_no_fuel {m : InsertMap} (hreach : InsertMap.Reachable m)
    (hlen : m.entries.length ≤ 65536) (k v : Nat) : m.insert k v ≠ .error .fuel := by
  have hminv := reachable_MInv hreach hlen
  obtain ⟨es⟩ := m
  rw [insert_mk]
  by_cases hemp : es.length = 0
  · rw [if_pos hemp]
    intro hc
    cases hc
  · rw [if_neg hemp, insertAux_eq_descend]
    obtain ⟨o, ho⟩ := descend_terminates es k hminv.1 (es.length + 1) 0
      (by omega) (by omega)
    rw [ho]
    intro hc
    cases hc

theorem search_hit {r : Registry I} {key : GlobalKey I} {idx : Nat} {e : Entry I}
    (hget : r.table.get key.hash = .ok (some idx)) (hit : r.items[idx]? = some e) :
    r.search key = .ok (some e) := by
  simp only [Registry.search, hget, hit]

/-- Core facts about a registry built by `addList` from empty: entry `i` is
exactly the `i`-th pair with slot index `i`, the matching table node sits at
position `i` with `val = i`, and a colliding `add` is rejected with the
existing identifier in its diagnostic. -/
theorem built_core {hashf : String → Nat} {pairs : List (String × I)}
    {r : Registry I} {es : List (Entry I)} {i : Nat} {p : String × I}
    (hbuild : Registry.addList hashf Registry.new pairs = some (r, es))
    (hp : pairs[i]? = some p) :
    r.items = es ∧ r.items.length = pairs.length ∧
    es[i]? = some ⟨p.1, ⟨i⟩, ⟨hashf p.1⟩, p.2⟩ ∧
    RInv hashf r ∧
    ∃ n : Node, r.table.entries[i]? = some n ∧ n.val = i ∧ n.key = hashf p.1 := by
  obtain ⟨hinv, hitems0, heslen, hlook0, _⟩ :=
    addList_spec pairs Registry.new r es (rinv_new hashf) hbuild
  have hitems : r.items = es := by simpa [Registry.new] using hitems0
  have hlook : es[i]? = some ⟨p.1, ⟨i⟩, ⟨hashf p.1⟩, p.2⟩ := by
    have hl := hlook0 i p hp
    simpa [Registry.new] using hl
  have hipairs : i < pairs.length := by
    have h := (List.getElem?_eq_some.mp hp).1
    exact h
  have hrlen : r.items.length = pairs.length := by rw [hitems, heslen]
  have htlen : r.table.entries.length = pairs.length := by rw [hinv.2.1, hrlen]
  obtain ⟨n, hn⟩ : ∃ n, r.table.entries[i]? = some n :=
    ⟨r.table.entries[i], List.getElem?_eq_getElem (by omega)⟩
  obtain ⟨hval, e', he', hkey'⟩ := hinv.2.2.1 i n hn
  have he'' : r.items[i]? = some ⟨p.1, ⟨i⟩, ⟨hashf p.1⟩, p.2⟩ := by rw [hitems]; exact hlook
  rw [he''] at he'
  cases he'
  exact ⟨hitems, hrlen, hlook, hinv, n, hn, hval, hkey'⟩

/-- A colliding `add` on a built registry is rejected with the existing
entry's identifier in the diagnostic, and the registry it leaves behind is
exactly the one it started from. -/
theorem add_collision_core {hashf : String → Nat} {pairs : List (String × I)}
    {r : Registry I} {es : List (Entry I)} {i : Nat} {p : String × I}
    (idn : String) (it : I)
    (hbuild : Registry.addList hashf Registry.new pairs = some (r, es))
    (hlen : pairs.length < 65535)
    (hp : pairs[i]? = some p)
    (hhash : hashf idn = hashf p.1) :
    r.add hashf idn it = .uniquenessError r (some p.1) := by
  obtain ⟨hitems, hrlen, hlook, hinv, n, hn, hval, hkey'⟩ := built_core hbuild hp
  have hkeyi : n.key = hashf idn := by
    rw [hhash]
    exact hkey'
  have htlen : r.table.entries.length = r.items.length := hinv.2.1
  have hins : r.table.insert (hashf idn) (r.items.length % 65536) = .ok (r.table, some i) :=
    insert_collision_spec hinv.1 (show r.table.entries.length ≤ 65536 by omega) hn hkeyi
  rw [Registry.add, if_neg (show ¬ 65535 ≤ r.items.length by omega), hins]
  show AddResult.uniquenessError { r with table := r.table } ((r.items[i]?).map Entry.ident)
      = .uniquenessError r (some p.1)
  have hri : r.items[i]? = some ⟨p.1, ⟨i⟩, ⟨hashf p.1⟩, p.2⟩ := by rw [hitems]; exact hlook
  rw [hri]
  rfl

/-- Payload write at one slot: position `k` gets its payload replaced, all
other positions are untouched, and identity fields survive everywhere. -/
theorem setItemAt_getElem? (l : List (Entry I)) (k : Nat) (x : I) :
    ∀ j, (setItemAt l k x)[j]? = (l[j]?).map (fun e => if j = k then e.setItem x else e) := by
  induction l generalizing k with
  | nil => intro j; simp [setItemAt]
  | cons hd tl ih =>
    intro j
    cases k with
    | zero =>
      cases j with
      | zero => simp [setItemAt]
      | succ j' => simp [setItemAt]
    | succ k' =>
      cases j with
      | zero => simp [setItemAt]
      | succ j' =>
        rw [setItemAt, List.getElem?_cons_succ, List.getElem?_cons_succ, ih k' j']
        cases tl[j']? with
        | none => rfl
        | some e =>
          by_cases hjk : j' = k'
          · have h2 : j' + 1 = k' + 1 := by omega
            simp [hjk, h2]
          · have h2 : ¬ (j' + 1 = k' + 1) := by omega
            simp [hjk, h2]

/-- Identity fields at every slot survive a payload write. -/
theorem identityAt_setItemAt (r : Registry I) (k : Nat) (x : I) (j : Nat) :
    (({ r with items := setItemAt r.items k x } : Registry I).identityAt j) = r.identityAt j := by
  simp only [Registry.identityAt]
  rw [setItemAt_getElem?]
  cases hj : r.items[j]? with
  | none => rfl
  | some e =>
    by_cases hjk : j = k
    · simp [hjk, Entry.setItem]
    · simp [hjk]

/-! ## Claim theorems -/

/-- C1: for every sequence of pairs with pairwise distinct identifiers whose
stable hashes are also pairwise distinct, inserted via `add` into a registry
constructed empty, `search (GlobalKey.new ident)` returns `some` of the entry
created by that `add` call: its `ident` is that identifier and its payload is
the item passed to that call. -/
theorem c1_search_finds_every_inserted_entry (I : Type) (hashf : String → Nat)
    (pairs : List (String × I)) (r : Registry I) (es : List (Entry I))
    (hid : ∀ i j : Fin pairs.length, i ≠ j → (pairs.get i).1 ≠ (pairs.get j).1)
    (hh : ∀ i j : Fin pairs.length, i ≠ j → hashf (pairs.get i).1 ≠ hashf (pairs.get j).1)
    (hbuild : Registry.addList hashf Registry.new pairs = some (r, es)) :
    ∀ (i : Nat) (p : String × I), pairs[i]? = some p →
      ∃ e : Entry I, es[i]? = some e ∧
        r.search (GlobalKey.new hashf p.1) = .ok (some e) ∧
        e.ident = p.1 ∧ e.item = p.2 := by
  intro i p hp
  obtain ⟨hitems, hrlen, hlook, hinv, n, hn, hval, hkey'⟩ := built_core hbuild hp
  refine ⟨⟨p.1, ⟨i⟩, ⟨hashf p.1⟩, p.2⟩, hlook, ?_, rfl, rfl⟩
  have hget : r.table.get ((GlobalKey.new hashf p.1 : GlobalKey I).hash) = .ok (some i) := by
    have hg := get_of_findsAll hinv.1 hn
    rw [hkey', hval] at hg
    exact hg
  exact search_hit hget (by rw [hitems]; exact hlook)

/-- C2: the spec says `get` on an empty Index Node Store returns nothing for
every key and `search` on an empty Registry returns nothing, but the code
begins its descent with `self.entries[0]` and panics on the empty vector
(modelled as `.error .oob`); the other half of the claim — `insert` into the
empty store installs the root and never reports a collision — does hold. -/
theorem c2_empty_store_get_panics :
    (∀ k : Nat, InsertMap.get ⟨[]⟩ k = .error .oob) ∧
    (∀ k v : Nat, InsertMap.insert ⟨[]⟩ k v = .ok (⟨[⟨k, v, none, none⟩]⟩, none)) ∧
    (∀ key : GlobalKey Nat, (Registry.new : Registry Nat).search key = .error .oob) :=
  ⟨fun _ => rfl, fun _ _ => rfl, fun _ => rfl⟩

/-- C3 (counterexample): the one-node store holding `val = 42` at position
`0` is reachable from the empty store by one insert, yet inserting its key
again returns `some 0` — the node's array position — and not the stored
`val` of `42`. -/
theorem c3_counterexample :
    InsertMap.Reachable ⟨[⟨5, 42, none, none⟩]⟩ ∧
    InsertMap.insert ⟨[⟨5, 42, none, none⟩]⟩ 5 7 = .ok (⟨[⟨5, 42, none, none⟩]⟩, some 0) ∧
    (⟨5, 42, none, none⟩ : Node).val = 42 ∧ (0 : Nat) ≠ 42 := by
  refine ⟨.step .empty
    (show InsertMap.insert ⟨[]⟩ 5 42 = .ok (⟨[⟨5, 42, none, none⟩]⟩, none) from rfl),
    rfl, rfl, by omega⟩

/-- C3 (amended): on every store reachable by inserts while holding at most
`2^16` entries, `insert` with a key equal to a stored node's key stops the
descent at that node, returns the node's array position (not its stored
`val`), and leaves the store unchanged. -/
theorem c3_insert_equal_key_returns_position (m : InsertMap) (k v j : Nat) (n : Node)
    (hreach : InsertMap.Reachable m) (hlen : m.entries.length ≤ 65536)
    (hj : m.entries[j]? = some n) (hkey : n.key = k) :
    m.insert k v = .ok (m, some j) := by
  have hminv := reachable_MInv hreach hlen
  obtain ⟨es⟩ := m
  exact insert_collision_spec hminv hlen hj hkey

/-- C4: in a registry populated only through `add`, the entry returned by the
`i`-th successful call carries LocalKey value `i`, and indexing the registry
with that LocalKey yields that same entry. -/
theorem c4_local_keys_dense_and_index_roundtrip (I : Type) (hashf : String → Nat)
    (pairs : List (String × I)) (r : Registry I) (es : List (Entry I))
    (hbuild : Registry.addList hashf Registry.new pairs = some (r, es)) :
    ∀ (i : Nat) (e : Entry I), es[i]? = some e →
      e.local_key = ⟨i⟩ ∧ r.indexLocal e.local_key = some e := by
  intro i e he
  obtain ⟨hinv, hitems0, _, _, _⟩ := addList_spec pairs Registry.new r es (rinv_new hashf) hbuild
  have hitems : r.items = es := by simpa [Registry.new] using hitems0
  have hre : r.items[i]? = some e := by rw [hitems]; exact he
  have hlk := (hinv.2.2.2 i e hre).1
  refine ⟨hlk, ?_⟩
  rw [Registry.indexLocal, hlk]
  exact hre

/-- C5: `add` with an identifier whose stable hash is already present (a
duplicate identifier or a hash collision) fails with the fatal uniqueness
error, and the failure leaves the registry observably unchanged: the error
carries back exactly the registry it started from — same entries, and the
Index Node Store gained no node. -/
theorem c5_duplicate_hash_add_fails_unchanged (I : Type) (hashf : String → Nat)
    (pairs : List (String × I)) (r : Registry I) (es : List (Entry I))
    (idn : String) (it : I) (i : Nat) (p : String × I)
    (hbuild : Registry.addList hashf Registry.new pairs = some (r, es))
    (hlen : pairs.length < 65535)
    (hp : pairs[i]? = some p)
    (hhash : hashf idn = hashf p.1) :
    ∃ info, r.add hashf idn it = .uniquenessError r info :=
  ⟨some p.1, add_collision_core idn it hbuild hlen hp hhash⟩

/-- C6: `add` on a registry holding at least 65535 entries fails with the
fatal capacity error before inserting anything — the error carries the
registry unchanged; consequently a registry populated through `add` never
exceeds 65535 entries, and the 65536th insertion attempt is rejected. -/
theorem c6_capacity_bound :
    (∀ (I : Type) (hashf : String → Nat) (r : Registry I) (idn : String) (it : I),
      65535 ≤ r.items.length → r.add hashf idn it = .capacityError r) ∧
    (∀ (I : Type) (hashf : String → Nat) (pairs : List (String × I)) (r : Registry I)
      (es : List (Entry I)),
      Registry.addList hashf Registry.new pairs = some (r, es) → r.items.length ≤ 65535) := by
  constructor
  · intro I hashf r idn it h
    rw [Registry.add, if_pos h]
  · intro I hashf pairs r es hbuild
    obtain ⟨_, _, _, _, hbound⟩ := addList_spec pairs Registry.new r es (rinv_new hashf) hbuild
    rcases hbound with hnil | hb
    · subst hnil
      rw [Registry.addList] at hbuild
      cases hbuild
      show (Registry.new : Registry I).items.length ≤ 65535
      simp [Registry.new]
    · exact hb

/-- C7: serializing a GlobalKey yields exactly its raw 64-bit hash;
deserializing that integer reproduces an equal GlobalKey; deserializing the
original identifier string (hashed on decode with the fixed function and
seed) reproduces `GlobalKey.new ident`. -/
theorem c7_globalkey_roundtrip (I : Type) (hashf : String → Nat)
    (k : GlobalKey I) (ident : String) :
    GlobalKey.serialize k = k.hash ∧
    GlobalKey.deserialize hashf (.u64 (GlobalKey.serialize k)) = k ∧
    (GlobalKey.deserialize hashf (.str ident) : GlobalKey I) = GlobalKey.new hashf ident := by
  obtain ⟨h⟩ := k
  exact ⟨rfl, rfl, rfl⟩

/-- C8: no payload-mutation path (public `item` field / `DerefMut`, mutable
indexing, `search_mut`, `iter_mut`) changes an entry's `ident`, `local_key`
or `global_key`, and payload reads and writes through an entry behave as if
the caller held the payload directly. -/
theorem c8_entry_identity_immutable (I : Type) :
    (∀ (e : Entry I) (x : I),
      (e.setItem x).ident = e.ident ∧ (e.setItem x).local_key = e.local_key ∧
      (e.setItem x).global_key = e.global_key ∧ (e.setItem x).item = x ∧
      e.deref = e.item) ∧
    (∀ (r : Registry I) (k : LocalKey I) (x : I) (j : Nat),
      (r.indexLocalSet k x).identityAt j = r.identityAt j) ∧
    (∀ (r : Registry I) (k : LocalKey I) (x : I),
      ((r.indexLocalSet k x).items[k.index]?).map Entry.item
        = (r.items[k.index]?).map (fun _ => x)) ∧
    (∀ (r : Registry I) (key : GlobalKey I) (x : I) (r' : Registry I) (j : Nat),
      r.searchMutSet key x = .ok r' → r'.identityAt j = r.identityAt j) ∧
    (∀ (r : Registry I) (f : I → I) (j : Nat),
      (r.iterMutMap f).identityAt j = r.identityAt j ∧
      ((r.iterMutMap f).items[j]?).map Entry.item = (r.items[j]?).map (fun e => f e.item)) := by
  refine ⟨fun e x => ⟨rfl, rfl, rfl, rfl, rfl⟩, ?_, ?_, ?_, ?_⟩
  · intro r k x j
    exact identityAt_setItemAt r k.index x j
  · intro r k x
    show ((setItemAt r.items k.index x)[k.index]?).map Entry.item = _
    rw [setItemAt_getElem?]
    cases hj : r.items[k.index]? with
    | none => rfl
    | some e => simp [Entry.setItem]
  · intro r key x r' j h
    rw [Registry.searchMutSet] at h
    cases hget : r.table.get key.hash with
    | error f => rw [hget] at h; cases h
    | ok o =>
      rw [hget] at h
      cases o with
      | none =>
        cases h
        rfl
      | some idx =>
        have h' : (match r.items[idx]? with
            | some _ => Except.ok ({ r with items := setItemAt r.items idx x } : Registry I)
            | none => (Except.error .oob : Except DescentFail (Registry I))) = .ok r' := h
        cases hit : r.items[idx]? with
        | none => rw [hit] at h'; cases h'
        | some e =>
          rw [hit] at h'
          cases h'
          exact identityAt_setItemAt r idx x j
  · intro r f j
    constructor
    · simp only [Registry.iterMutMap, Registry.identityAt]
      rw [List.getElem?_map]
      cases hj : r.items[j]? with
      | none => rfl
      | some e => simp [Entry.setItem]
    · simp only [Registry.iterMutMap]
      rw [List.getElem?_map]
      cases hj : r.items[j]? with
      | none => rfl
      | some e => simp [Entry.setItem]

/-- C9 (counterexample): after 65537 successful inserts of distinct,
strictly decreasing keys the store is reachable, yet its node at position
65535 carries the truncated child link `some (65536 % 2^16) = some 0`, which
is not strictly greater than 65535 — the forward-link property fails. -/
theorem c9_counterexample :
    InsertMap.Reachable ⟨spine 65537⟩ ∧
    (spine 65537)[65535]? = some ⟨65537, 0, none, some 0⟩ ∧
    ¬ StrictLinks ⟨spine 65537⟩ := by
  have hnode : (spine 65537)[65535]? = some ⟨65537, 0, none, some 0⟩ := by
    rw [spine_getElem? (show 65535 < 65537 by omega)]
    decide
  refine ⟨spine_reachable 65536 (by omega), hnode, fun hs => ?_⟩
  simp only [StrictLinks, entries_mk] at hs
  have hlt := (hs 65535 ⟨65537, 0, none, some 0⟩ hnode).2 0 rfl
  omega

/-- C9 (amended): every store reachable from empty by `insert` calls while
holding at most `2^16` entries has all child links pointing strictly past
their own array position, and the descent loops of both `get` and `insert`
always terminate (their loop bound is never exhausted). -/
theorem c9_links_strictly_forward_within_bound (m : InsertMap)
    (hreach : InsertMap.Reachable m) (hlen : m.entries.length ≤ 65536) :
    StrictLinks m ∧ (∀ k, m.get k ≠ .error .fuel) ∧
      (∀ k v, m.insert k v ≠ .error .fuel) :=
  ⟨StrictLinks_of_LinksOk (reachable_MInv hreach hlen).1,
   fun k => get_no_fuel hreach hlen k,
   fun k v => insert_no_fuel hreach hlen k v⟩

/-- C10: in a registry populated only through `add`, the table and the entry
vector grow in lockstep so that node `j` stores `val = j`; the value `insert`
returns on a colliding key is the slot of the previously inserted colliding
entry, and `add`'s uniqueness diagnostic names that entry's identifier. -/
theorem c10_lockstep_and_collision_diagnostic (I : Type) (hashf : String → Nat)
    (pairs : List (String × I)) (r : Registry I) (es : List (Entry I))
    (idn : String) (it : I) (i : Nat) (p : String × I)
    (hbuild : Registry.addList hashf Registry.new pairs = some (r, es))
    (hlen : pairs.length < 65535)
    (hp : pairs[i]? = some p)
    (hhash : hashf idn = hashf p.1) :
    (∀ (j : Nat) (n : Node), r.table.entries[j]? = some n → n.val = j) ∧
    r.table.insert (hashf idn) (r.items.length % 65536) = .ok (r.table, some i) ∧
    r.add hashf idn it = .uniquenessError r (some p.1) := by
  obtain ⟨hitems, hrlen, hlook, hinv, n, hn, hval, hkey'⟩ := built_core hbuild hp
  have hkeyi : n.key = hashf idn := by
    rw [hhash]
    exact hkey'
  have htlen : r.table.entries.length = r.items.length := hinv.2.1
  refine ⟨fun j n' hn' => (hinv.2.2.1 j n' hn').1, ?_,
    add_collision_core idn it hbuild hlen hp hhash⟩
  exact insert_collision_spec hinv.1 (show r.table.entries.length ≤ 65536 by omega) hn hkeyi

/-! ## Concrete data for the witnesses

A two-entry build with `String.length` standing in for the abstract hash
(identifiers `"a"` and `"bb"` hash to `1` and `2`). -/

def pairsAB : List (String × Nat) := [("a", 10), ("bb", 20)]

def entsAB : List (Entry Nat) := [⟨"a", ⟨0⟩, ⟨1⟩, 10⟩, ⟨"bb", ⟨1⟩, ⟨2⟩, 20⟩]

def regAB : Registry Nat := ⟨entsAB, ⟨[⟨1, 0, some 1, none⟩, ⟨2, 1, none, none⟩]⟩⟩

def regABmut : Registry Nat :=
  ⟨[⟨"a", ⟨0⟩, ⟨1⟩, 99⟩, ⟨"bb", ⟨1⟩, ⟨2⟩, 20⟩], ⟨[⟨1, 0, some 1, none⟩, ⟨2, 1, none, none⟩]⟩⟩

def bigReg : Registry Nat :=
  ⟨(List.range 65535).map (fun j => ⟨"", ⟨j⟩, ⟨0⟩, 0⟩), ⟨[]⟩⟩

/-- Witness for C1 at the concrete two-entry build. -/
theorem c1_witness :
    ((∀ i j : Fin pairsAB.length, i ≠ j → (pairsAB.get i).1 ≠ (pairsAB.get j).1) ∧
     (∀ i j : Fin pairsAB.length, i ≠ j →
        String.length (pairsAB.get i).1 ≠ String.length (pairsAB.get j).1) ∧
     Registry.addList String.length Registry.new pairsAB = some (regAB, entsAB)) ∧
    (∀ (i : Nat) (p : String × Nat), pairsAB[i]? = some p →
      ∃ e : Entry Nat, entsAB[i]? = some e ∧
        regAB.search (GlobalKey.new String.length p.1) = .ok (some e) ∧
        e.ident = p.1 ∧ e.item = p.2) := by
  have h1 : ∀ i j : Fin pairsAB.length, i ≠ j → (pairsAB.get i).1 ≠ (pairsAB.get j).1 := by
    decide
  have h2 : ∀ i j : Fin pairsAB.length, i ≠ j →
      String.length (pairsAB.get i).1 ≠ String.length (pairsAB.get j).1 := by decide
  have h3 : Registry.addList String.length Registry.new pairsAB = some (regAB, entsAB) := by
    decide
  exact ⟨⟨h1, h2, h3⟩,
    c1_search_finds_every_inserted_entry Nat String.length pairsAB regAB entsAB h1 h2 h3⟩

/-- Witness for C3 on the reachable one-node store. -/
theorem c3_witness :
    (InsertMap.Reachable ⟨[⟨5, 42, none, none⟩]⟩ ∧
     (⟨[⟨5, 42, none, none⟩]⟩ : InsertMap).entries.length ≤ 65536 ∧
     (⟨[⟨5, 42, none, none⟩]⟩ : InsertMap).entries[0]? = some ⟨5, 42, none, none⟩ ∧
     (⟨5, 42, none, none⟩ : Node).key = 5) ∧
    InsertMap.insert ⟨[⟨5, 42, none, none⟩]⟩ 5 7 = .ok (⟨[⟨5, 42, none, none⟩]⟩, some 0) := by
  have hr : InsertMap.Reachable ⟨[⟨5, 42, none, none⟩]⟩ :=
    .step .empty (show InsertMap.insert ⟨[]⟩ 5 42 = .ok (⟨[⟨5, 42, none, none⟩]⟩, none) from rfl)
  exact ⟨⟨hr, by decide, rfl, rfl⟩,
    c3_insert_equal_key_returns_position _ 5 7 0 _ hr (by decide) rfl rfl⟩

/-- Witness for C4 at the concrete two-entry build. -/
theorem c4_witness :
    Registry.addList String.length Registry.new pairsAB = some (regAB, entsAB) ∧
    (∀ (i : Nat) (e : Entry Nat), entsAB[i]? = some e →
      e.local_key = ⟨i⟩ ∧ regAB.indexLocal e.local_key = some e) := by
  have h3 : Registry.addList String.length Registry.new pairsAB = some (regAB, entsAB) := by
    decide
  exact ⟨h3, c4_local_keys_dense_and_index_roundtrip Nat String.length pairsAB regAB entsAB h3⟩

/-- Witness for C5: `"cc"` hash-collides with the stored `"bb"` (both have
`String.length` 2) and the `add` is rejected with the registry unchanged. -/
theorem c5_witness :
    (Registry.addList String.length Registry.new pairsAB = some (regAB, entsAB) ∧
     pairsAB.length < 65535 ∧
     pairsAB[1]? = some ("bb", 20) ∧
     String.length "cc" = String.length ("bb", 20).1) ∧
    ∃ info, regAB.add String.length "cc" 99 = .uniquenessError regAB info := by
  have h3 : Registry.addList String.length Registry.new pairsAB = some (regAB, entsAB) := by
    decide
  exact ⟨⟨h3, by decide, rfl, by decide⟩,
    c5_duplicate_hash_add_fails_unchanged Nat String.length pairsAB regAB entsAB
      "cc" 99 1 ("bb", 20) h3 (by decide) rfl (by decide)⟩

/-- Witness for C6: a 65535-entry registry rejects the 65536th insertion,
and the empty build respects the bound. -/
theorem c6_witness :
    (65535 ≤ bigReg.items.length ∧
      bigReg.add String.length "x" 0 = .capacityError bigReg) ∧
    (Registry.addList String.length Registry.new ([] : List (String × Nat))
        = some (Registry.new, []) ∧
      (Registry.new : Registry Nat).items.length ≤ 65535) := by
  have h1 : 65535 ≤ bigReg.items.length := by simp [bigReg]
  exact ⟨⟨h1, c6_capacity_bound.1 Nat String.length bigReg "x" 0 h1⟩,
    rfl, c6_capacity_bound.2 Nat String.length [] Registry.new [] rfl⟩

/-- Witness for C8: a concrete `search_mut` payload write leaves the identity
fields at slot 0 unchanged. -/
theorem c8_witness :
    Registry.searchMutSet regAB ⟨1⟩ 99 = .ok regABmut ∧
    regABmut.identityAt 0 = regAB.identityAt 0 := by
  have h : Registry.searchMutSet regAB ⟨1⟩ 99 = .ok regABmut := by decide
  exact ⟨h, (c8_entry_identity_immutable Nat).2.2.2.1 regAB ⟨1⟩ 99 regABmut 0 h⟩

/-- Witness for C9 on the reachable one-node store. -/
theorem c9_witness :
    (InsertMap.Reachable ⟨[⟨5, 42, none, none⟩]⟩ ∧
      (⟨[⟨5, 42, none, none⟩]⟩ : InsertMap).entries.length ≤ 65536) ∧
    (StrictLinks ⟨[⟨5, 42, none, none⟩]⟩ ∧
      (∀ k, InsertMap.get ⟨[⟨5, 42, none, none⟩]⟩ k ≠ .error .fuel) ∧
      (∀ k v, InsertMap.insert ⟨[⟨5, 42, none, none⟩]⟩ k v ≠ .error .fuel)) := by
  have hr : InsertMap.Reachable ⟨[⟨5, 42, none, none⟩]⟩ :=
    .step .empty (show InsertMap.insert ⟨[]⟩ 5 42 = .ok (⟨[⟨5, 42, none, none⟩]⟩, none) from rfl)
  exact ⟨⟨hr, by decide⟩, c9_links_strictly_forward_within_bound _ hr (by decide)⟩

/-- Witness for C10 at the concrete two-entry build, colliding on `"cc"`. -/
theorem c10_witness :
    (Registry.addList String.length Registry.new pairsAB = some (regAB, entsAB) ∧
     pairsAB.length < 65535 ∧
     pairsAB[1]? = some ("bb", 20) ∧
     String.length "cc" = String.length ("bb", 20).1) ∧
    ((∀ (j : Nat) (n : Node), regAB.table.entries[j]? = some n → n.val = j) ∧
     regAB.table.insert (String.length "cc") (regAB.items.length % 65536)
        = .ok (regAB.table, some 1) ∧
     regAB.add String.length "cc" 99 = .uniquenessError regAB (some ("bb", 20).1)) := by
  have h3 : Registry.addList String.length Registry.new pairsAB = some (regAB, entsAB) := by
    decide
  exact ⟨⟨h3, by decide, rfl, by decide⟩,
    c10_lockstep_and_collision_diagnostic Nat String.length pairsAB regAB entsAB
      "cc" 99 1 ("bb", 20) h3 (by decide) rfl (by decide)⟩

end BevyRegistry
